import Mathlib

/-!
Verification development for the categorical diffusion-and-correction engine.

Shallow embedding of the core numeric components of the repository:
`Probabilities` (the simplex codec), the linear and cosine noise schedulers,
`EMA`, and `InverseGradient.run`, translated from `src/utils.py` and
`scripts/inverse_gradient.py`.

Modelling conventions:
- float64 values are modelled as rationals (`ℚ`), so arithmetic is exact;
- a batch matrix is a list of rows (`List (List ℚ)`), with the numpy shape
  asserts rendered as explicit row-length checks;
- assertions that abort are modelled with `Except`;
- transcendental library primitives (`np.exp`, `torch.log`, `torch.cos`,
  `torch.sqrt`, `np.linalg.norm`'s square root) have no rational counterpart
  and are passed in as explicit function parameters, mirroring the fact that
  the source calls them as opaque library routines.
-/

namespace Spec2Proof

/-! ## Simplex codec (`class Probabilities`, src/utils.py) -/

/-- Clamp of one row: `np.maximum(0, p)` applied to a single row. -/
def clampRow (row : List ℚ) : List ℚ := row.map fun x => max 0 x

/-- Per-entry block sums of a row.  The source computes `s = np.dot(p, self.mat)`
where `mat` (built by `_set_mat`) is 1 exactly at pairs of indices belonging to
the same feature block, so the entry of the product at column `j` is the sum of
the row over the feature block containing `j`, repeated across that block. -/
def blockSums : List ℕ → List ℚ → List ℚ
  | [], _ => []
  | c :: cs, row => List.replicate c (row.take c).sum ++ blockSums cs (row.drop c)

/-- Per-feature block totals of a row, one entry per feature; this is the vector
of sums the specification speaks about when it says "every feature block sums
to 1". -/
def blockTotals : List ℕ → List ℚ → List ℚ
  | [], _ => []
  | c :: cs, row => (row.take c).sum :: blockTotals cs (row.drop c)

/-- Embedding of `Probabilities.normalize`: asserts the width of every row is
`sum(structure)`, caps the entries at 0, asserts every (clamped) block sum is
positive (`assert np.all(s > 0)`), and divides each entry by the sum of its
feature block. -/
def Probabilities.normalize (struct : List ℕ) (p : List (List ℚ)) :
    Except String (List (List ℚ)) :=
  if ∀ r ∈ p, r.length = struct.sum then
    if ∀ r ∈ p.map clampRow, ∀ s ∈ blockSums struct r, 0 < s then
      .ok ((p.map clampRow).map fun r => List.zipWith (· / ·) r (blockSums struct r))
    else .error "Zero sum"
  else .error "shape"

/-- One feature block of a one-hot row: a zero vector of length `c` with a
single 1 at position `v` (the scatter `x1[arange, x[:,i] + start] = 1`). -/
def oneHotBlock (c v : ℕ) : List ℚ :=
  List.replicate v 0 ++ 1 :: List.replicate (c - 1 - v) 0

/-- One-hot encoding of a single index row, block by block. -/
def onehotRow : List ℕ → List ℕ → List ℚ
  | [], _ => []
  | _ :: _, [] => []
  | c :: cs, v :: vs => oneHotBlock c v ++ onehotRow cs vs

/-- Embedding of `Probabilities.to_onehot`.  The source asserts the width is
`n = len(structure)`, then evaluates `np.max(x, axis=0)`, which raises a
zero-size-reduction `ValueError` when the batch has zero rows but at least one
column; then it asserts every column maximum is below the feature cardinality
(entries are naturals here, so the `x >= 0` assert holds by construction). -/
def Probabilities.to_onehot (struct : List ℕ) (x : List (List ℕ)) :
    Except String (List (List ℚ)) :=
  if ∀ r ∈ x, r.length = struct.length then
    if x = [] ∧ struct ≠ [] then .error "zero-size reduction"
    else if ∀ r ∈ x, ∀ pr ∈ List.zip r struct, pr.1 < pr.2 then
      .ok (x.map (onehotRow struct))
    else .error "Values out of range"
  else .error "shape"

/-- Index and value of the first maximal element of `x :: ys` (the semantics of
`np.argmax`, which resolves ties toward the lowest index). -/
def argmaxPair : ℚ → List ℚ → ℕ × ℚ
  | x, [] => (0, x)
  | x, y :: ys =>
    match argmaxPair y ys with
    | (i, m) => if m > x then (i + 1, m) else (0, x)

/-- Index of the first maximal element of a list (`np.argmax`). -/
def argmaxIdx : List ℚ → ℕ
  | [] => 0
  | x :: xs => (argmaxPair x xs).1

/-- Per-block arg-max decoding of one row (the loop shared by
`onehot_to_values` and `prob_to_onehot`). -/
def valuesRow : List ℕ → List ℚ → List ℕ
  | [], _ => []
  | c :: cs, xs => argmaxIdx (xs.take c) :: valuesRow cs (xs.drop c)

/-- Embedding of `Probabilities.onehot_to_values`: asserts the width is
`sum(structure)` and takes the arg-max of every feature block. -/
def Probabilities.onehot_to_values (struct : List ℕ) (x : List (List ℚ)) :
    Except String (List (List ℕ)) :=
  if ∀ r ∈ x, r.length = struct.sum then .ok (x.map (valuesRow struct))
  else .error "shape"

/-- Embedding of `Probabilities.prob_to_onehot`: asserts the width, takes the
per-block arg-max of every row and re-encodes the resulting values one-hot. -/
def Probabilities.prob_to_onehot (struct : List ℕ) (p : List (List ℚ)) :
    Except String (List (List ℚ)) :=
  if ∀ r ∈ p, r.length = struct.sum then
    Probabilities.to_onehot struct (p.map (valuesRow struct))
  else .error "shape"

/-- Elementwise sigmoid of a row: `p = 1 / (1 + np.exp(-logits))`, with `expf`
standing for the (transcendental) `np.exp`. -/
def sigmoidRow (expf : ℚ → ℚ) (row : List ℚ) : List ℚ :=
  row.map fun z => 1 / (1 + expf (-z))

/-- Embedding of `Probabilities._logits_to_normalized_probs`: sigmoid followed
by `normalize`. -/
def Probabilities.logits_to_normalized_probs (struct : List ℕ) (expf : ℚ → ℚ)
    (logits : List (List ℚ)) : Except String (List (List ℚ)) :=
  Probabilities.normalize struct (logits.map (sigmoidRow expf))

/-- Embedding of `Probabilities.logits_to_values`: converts logits to
normalized probabilities, then decodes through `prob_to_onehot` and
`onehot_to_values`, propagating any assertion failure. -/
def Probabilities.logits_to_values (struct : List ℕ) (expf : ℚ → ℚ)
    (logits : List (List ℚ)) : Except String (List (List ℕ)) :=
  match Probabilities.logits_to_normalized_probs struct expf logits with
  | .error e => .error e
  | .ok p =>
    match Probabilities.prob_to_onehot struct p with
    | .error e => .error e
    | .ok oh => Probabilities.onehot_to_values struct oh

/-- Pipeline stated by the specification for claim C6, written out as the
composition `onehot_to_values ∘ prob_to_onehot ∘ normalize ∘ sigmoid`, to be
compared with the source's `logits_to_values`. -/
def spec_logits_pipeline (struct : List ℕ) (expf : ℚ → ℚ)
    (logits : List (List ℚ)) : Except String (List (List ℕ)) :=
  (Probabilities.normalize struct (logits.map (sigmoidRow expf))).bind fun p =>
    (Probabilities.prob_to_onehot struct p).bind fun oh =>
      Probabilities.onehot_to_values struct oh

/-! ## Exponential moving average (`class EMA`, src/utils.py) -/

/-- State of the `EMA` helper: the interpolation coefficient `beta` and the
internal step counter.  A model's trainable parameters are modelled as a flat
list of rational scalars. -/
structure EMA where
  beta : ℚ
  step : ℕ
deriving DecidableEq

/-- Embedding of `EMA.update_average`: interpolates old and new weights
(the `old is None` guard of the source never fires for tensor parameters,
which are always present). -/
def EMA.update_average (e : EMA) (old new : ℚ) : ℚ :=
  old * e.beta + (1 - e.beta) * new

/-- Embedding of `EMA.update_model_average`: zips the current model's
parameters with the shadow model's and interpolates each pair. -/
def EMA.update_model_average (e : EMA) (ma_model model : List ℚ) : List ℚ :=
  List.zipWith (fun current_params ma_params => e.update_average ma_params current_params)
    model ma_model

/-- Embedding of `EMA.step_ema`: during warm-up (`step < step_start_ema`) the
shadow is reset to the current parameters (`reset_parameters`, a
`load_state_dict` copy); afterwards it is interpolated; the counter increases
by one in both branches.  Returns the updated `EMA` state and shadow. -/
def EMA.step_ema (e : EMA) (ema_model model : List ℚ) (step_start_ema : ℕ) :
    EMA × List ℚ :=
  if e.step < step_start_ema then
    (⟨e.beta, e.step + 1⟩, model)
  else
    (⟨e.beta, e.step + 1⟩, e.update_model_average ema_model model)

/-! ## Noise schedulers (`BaseNoiseScheduler` and subclasses, src/utils.py) -/

/-- The five aligned coefficient sequences of a scheduler, plus the step count
(`noise_time_steps`).  Sequences are total functions on `ℕ`; only indices
below `noise_time_steps` are meaningful. -/
structure ScheduleState where
  noise_time_steps : ℕ
  betas : ℕ → ℚ
  alphas : ℕ → ℚ
  alpha_bar : ℕ → ℚ
  sqrt_alpha_bar : ℕ → ℚ
  sqrt_one_minus_alpha_bar : ℕ → ℚ

/-- Embedding of `torch.linspace(a, b, n)` as a function of the index:
`n` evenly spaced points from `a` to `b` inclusive (a single point equals
`a` when `n ≤ 1`). -/
def linspace (a b : ℚ) (n : ℕ) : ℕ → ℚ :=
  fun i => if n ≤ 1 then a else a + (b - a) * i / ((n : ℚ) - 1)

/-- Betas of `LinearNoiseScheduler._initialize_schedule`:
`torch.linspace(beta_start, beta_end, noise_time_steps)`. -/
def linear_betas (beta_start beta_end : ℚ) (T : ℕ) : ℕ → ℚ :=
  linspace beta_start beta_end T

/-- Alphas of the linear scheduler: `1 - betas`. -/
def linear_alphas (beta_start beta_end : ℚ) (T : ℕ) : ℕ → ℚ :=
  fun t => 1 - linear_betas beta_start beta_end T t

/-- Cumulative alpha product of the linear scheduler:
`torch.cumprod(alphas, dim=0)`. -/
def linear_alpha_bar (beta_start beta_end : ℚ) (T : ℕ) : ℕ → ℚ :=
  fun t => ∏ i ∈ Finset.range (t + 1), linear_alphas beta_start beta_end T i

/-- Embedding of `LinearNoiseScheduler._initialize_schedule`, with `sqrtf`
standing for `torch.sqrt`. -/
def LinearNoiseScheduler.init_schedule (sqrtf : ℚ → ℚ) (T : ℕ)
    (beta_start beta_end : ℚ) : ScheduleState :=
  ⟨T, linear_betas beta_start beta_end T,
    linear_alphas beta_start beta_end T,
    linear_alpha_bar beta_start beta_end T,
    fun t => sqrtf (linear_alpha_bar beta_start beta_end T t),
    fun t => sqrtf (1 - linear_alpha_bar beta_start beta_end T t)⟩

/-- Embedding of `CosineNoiseScheduler._cosine_schedule`:
`cos((t / T + s) / (1 + s) * π/2) ** 2`, with `cosHalfPi y` standing for
the transcendental `cos(y * π/2)`. -/
def cosine_schedule_fn (cosHalfPi : ℚ → ℚ) (T : ℕ) (s t : ℚ) : ℚ :=
  cosHalfPi ((t / T + s) / (1 + s)) ^ 2

/-- Cumulative alpha products of the cosine scheduler, evaluated at the grid
`torch.linspace(0, T, T)` and normalized by the schedule value at 0. -/
def cosine_alpha_bar (cosHalfPi : ℚ → ℚ) (T : ℕ) (s : ℚ) : ℕ → ℚ :=
  fun t => cosine_schedule_fn cosHalfPi T s (linspace 0 T T t) /
    cosine_schedule_fn cosHalfPi T s 0

/-- Alphas of the cosine scheduler: `alpha_bar[t] / alpha_bar[t-1]`, with
`alphas[0] = alpha_bar[0]`. -/
def cosine_alphas (cosHalfPi : ℚ → ℚ) (T : ℕ) (s : ℚ) : ℕ → ℚ :=
  fun t => if t = 0 then cosine_alpha_bar cosHalfPi T s 0
    else cosine_alpha_bar cosHalfPi T s t / cosine_alpha_bar cosHalfPi T s (t - 1)

/-- Embedding of `CosineNoiseScheduler._initialize_schedule`:
betas are `1 - alphas` clamped to `[1e-4, 0.999]`; `alpha_bar` is kept as the
cosine curve (not recomputed from the clamped betas). -/
def CosineNoiseScheduler.init_schedule (cosHalfPi sqrtf : ℚ → ℚ) (T : ℕ)
    (s : ℚ) : ScheduleState :=
  ⟨T, fun t => min (max (1 - cosine_alphas cosHalfPi T s t) (1 / 10000)) (999 / 1000),
    cosine_alphas cosHalfPi T s,
    cosine_alpha_bar cosHalfPi T s,
    fun t => sqrtf (cosine_alpha_bar cosHalfPi T s t),
    fun t => sqrtf (1 - cosine_alpha_bar cosHalfPi T s t)⟩

/-- Embedding of `BaseNoiseScheduler.sample_prev_step` on one tensor entry.
`freshNoise` models the draw `torch.randn_like(x_t)`, used only when `t > 0`
(otherwise the source substitutes zeros).  `sqrtf` models the inline
`torch.sqrt(self.alphas[t])`.  The index `t - 1` wraps to the last schedule
entry when `t = 0`, matching the tensor indexing `alpha_bar[t - 1]` which
reads index `-1`; the wrapped value is multiplied by zero noise. -/
def sample_prev_step (sqrtf : ℚ → ℚ) (S : ScheduleState)
    (x_t predicted_noise freshNoise : ℚ) (t : ℕ) : ℚ :=
  let backward_noise := if 0 < t then freshNoise else 0
  let mean := (x_t - S.betas t * predicted_noise / S.sqrt_one_minus_alpha_bar t) /
    sqrtf (S.alphas t)
  let prev := if t = 0 then S.noise_time_steps - 1 else t - 1
  let std := (1 - S.alpha_bar prev) / (1 - S.alpha_bar t) * S.betas t
  mean + std * backward_noise

/-! ## Inverse-gradient corrector (`InverseGradient.run`, scripts/inverse_gradient.py) -/

/-- A trained classifier: its parameter vector and its architecture, given as
the forward map and the autograd gradient of the BCE-against-zero loss with
respect to the input.  Both receive the parameters explicitly so that the
embedding can state which state the corrector leaves untouched. -/
structure Classifier where
  params : List ℚ
  predictArch : List ℚ → List (List ℚ) → List ℚ
  gradArch : List ℚ → List (List ℚ) → List (List ℚ)

/-- Forward evaluation `self.model(p)`. -/
def Classifier.predict (c : Classifier) (p : List (List ℚ)) : List ℚ :=
  c.predictArch c.params p

/-- Gradient of the loss with respect to the input (`loss.backward()` then
`p.grad`). -/
def Classifier.gradInput (c : Classifier) (p : List (List ℚ)) : List (List ℚ) :=
  c.gradArch c.params p

/-- The loss `torch.nn.BCELoss()(y, torch.zeros_like(y))`: the mean of
`-log(1 - y_i)`, with `logf` standing for the transcendental logarithm. -/
def bceLossZero (logf : ℚ → ℚ) (y : List ℚ) : ℚ :=
  -(y.map fun yi => logf (1 - yi)).sum / y.length

/-- Sum of squared entries of a matrix; `np.linalg.norm` of the flattened
gradient is `sqrtf` of this value. -/
def flatSumSq (m : List (List ℚ)) : ℚ :=
  (m.map fun r => (r.map fun x => x ^ 2).sum).sum

/-- Reasons `run` stops and hands a point back to the caller. -/
inductive RunExit where
  | success
  | zeroGradient
  | maxIterations
deriving DecidableEq

/-- Fatal outcomes of `run`: `assertionError` models an uncaught
`AssertionError` escaping from `Probabilities.normalize`; `outOfFuel` marks
exhaustion of the step budget given to the loop model (the source loop is
`while True`). -/
inductive RunError where
  | assertionError
  | outOfFuel
deriving DecidableEq

/-- A successful return of `run`: the corrected point, the last loss value and
the reason for stopping. -/
structure RunOutput where
  p : List (List ℚ)
  lossValue : ℚ
  exit : RunExit
deriving DecidableEq

/-- One pass of the `while True` loop of `InverseGradient.run`, in source
order: predict, loss, backward, `dp = -p.grad`, `module = norm(dp)`,
`dp = dp / module * eta`, `p_copy += dp`, `p_copy = proba.normalize(p_copy)`,
`p.data = p_copy`, then the three exit checks.  When `module = 0` the float
division `dp / module` is `0/0`, which produces a NaN in every entry; the NaN
propagates through `np.maximum` and the block sums, so `normalize`'s
`assert np.all(s > 0)` fails before any exit check is reached — modelled as an
immediate `assertionError`.  The classifier is threaded through and returned
so that the embedding records what happens to the model's state. -/
def runLoop (sqrtf logf : ℚ → ℚ) (struct : List ℕ) (model : Classifier)
    (eta threshold : ℚ) (n_iter : ℕ) (p : List (List ℚ)) (i fuel : ℕ) :
    Except RunError RunOutput × Classifier :=
  match fuel with
  | 0 => (.error .outOfFuel, model)
  | fuel' + 1 =>
    let i1 := i + 1
    let y := model.predict p
    let loss := bceLossZero logf y
    let g := model.gradInput p
    let dp := g.map (List.map Neg.neg)
    let module := sqrtf (flatSumSq dp)
    if module = 0 then
      (.error .assertionError, model)
    else
      let dps := dp.map (List.map fun d => d / module * eta)
      let p_copy := List.zipWith (List.zipWith (· + ·)) p dps
      match Probabilities.normalize struct p_copy with
      | .error _ => (.error .assertionError, model)
      | .ok p' =>
        if loss < threshold then (.ok ⟨p', loss, .success⟩, model)
        else if module = 0 then (.ok ⟨p', loss, .zeroGradient⟩, model)
        else if i1 = n_iter then (.ok ⟨p', loss, .maxIterations⟩, model)
        else runLoop sqrtf logf struct model eta threshold n_iter p' i1 fuel'

/-- Embedding of `InverseGradient.run`: copies the input (`deepcopy`), marks
it as requiring a gradient, and iterates the loop with the iteration counter
starting at 0.  `fuel` bounds the number of modelled loop passes. -/
def InverseGradient.run (sqrtf logf : ℚ → ℚ) (model : Classifier)
    (x : List (List ℚ)) (n_values : List ℕ) (eta threshold : ℚ)
    (n_iter fuel : ℕ) : Except RunError RunOutput × Classifier :=
  runLoop sqrtf logf n_values model eta threshold n_iter x 0 fuel

/-! ## Lemmas about block sums, totals and normalization -/

lemma sum_map_div (l : List ℚ) (S : ℚ) :
    (l.map fun x => x / S).sum = l.sum / S := by
  induction l with
  | nil => simp
  | cons x xs ih => simp [ih, add_div]

lemma blockSums_length (struct : List ℕ) (row : List ℚ) :
    (blockSums struct row).length = struct.sum := by
  induction struct generalizing row with
  | nil => simp [blockSums]
  | cons c cs ih => simp [blockSums, ih]

lemma mem_blockTotals_of_mem_blockSums {struct : List ℕ} {row : List ℚ} {s : ℚ}
    (h : s ∈ blockSums struct row) : s ∈ blockTotals struct row := by
  induction struct generalizing row with
  | nil => simp [blockSums] at h
  | cons c cs ih =>
    simp only [blockSums, List.mem_append, List.mem_replicate] at h
    simp only [blockTotals, List.mem_cons]
    rcases h with ⟨-, rfl⟩ | h
    · exact Or.inl rfl
    · exact Or.inr (ih h)

lemma mem_blockSums_of_mem_blockTotals {struct : List ℕ} {row : List ℚ} {b : ℚ}
    (hpos : ∀ c ∈ struct, 0 < c) (h : b ∈ blockTotals struct row) :
    b ∈ blockSums struct row := by
  induction struct generalizing row with
  | nil => simp [blockTotals] at h
  | cons c cs ih =>
    simp only [blockTotals, List.mem_cons] at h
    simp only [blockSums, List.mem_append, List.mem_replicate]
    rcases h with rfl | h
    · exact Or.inl ⟨(hpos c (List.mem_cons_self c cs)).ne', rfl⟩
    · exact Or.inr (ih (fun d hd => hpos d (List.mem_cons_of_mem c hd)) h)

lemma blockTotals_nonneg {struct : List ℕ} {row : List ℚ}
    (h : ∀ x ∈ row, 0 ≤ x) : ∀ b ∈ blockTotals struct row, 0 ≤ b := by
  induction struct generalizing row with
  | nil => simp [blockTotals]
  | cons c cs ih =>
    intro b hb
    simp only [blockTotals, List.mem_cons] at hb
    rcases hb with rfl | hb
    · exact List.sum_nonneg fun x hx => h x (List.take_subset c row hx)
    · exact ih (fun x hx => h x (List.drop_subset c row hx)) b hb

lemma clampRow_nonneg (row : List ℚ) : ∀ x ∈ clampRow row, 0 ≤ x := by
  intro x hx
  simp only [clampRow, List.mem_map] at hx
  obtain ⟨y, -, rfl⟩ := hx
  exact le_max_left 0 y

lemma clampRow_length (row : List ℚ) : (clampRow row).length = row.length := by
  simp [clampRow]

lemma clampRow_eq_self {row : List ℚ} (h : ∀ x ∈ row, 0 ≤ x) : clampRow row = row := by
  induction row with
  | nil => rfl
  | cons x xs ih =>
    simp only [clampRow, List.map_cons] at ih ⊢
    rw [max_eq_right (h x (List.mem_cons_self x xs)),
      ih fun y hy => h y (List.mem_cons_of_mem x hy)]

lemma zipWith_div_replicate (l : List ℚ) (S : ℚ) :
    List.zipWith (· / ·) l (List.replicate l.length S) = l.map fun x => x / S := by
  induction l with
  | nil => rfl
  | cons x xs ih => simp [List.replicate_succ, ih]

lemma zipWith_div_nonneg : ∀ (a b : List ℚ), (∀ x ∈ a, 0 ≤ x) → (∀ y ∈ b, 0 < y) →
    ∀ z ∈ List.zipWith (· / ·) a b, 0 ≤ z := by
  intro a
  induction a with
  | nil => intro b _ _ z hz; simp at hz
  | cons x xs ih =>
    intro b ha hb z hz
    cases b with
    | nil => simp at hz
    | cons y ys =>
      simp only [List.zipWith_cons_cons, List.mem_cons] at hz
      rcases hz with rfl | hz
      · exact div_nonneg (ha x (List.mem_cons_self x xs)) (hb y (List.mem_cons_self y ys)).le
      · exact ih ys (fun u hu => ha u (List.mem_cons_of_mem x hu))
          (fun v hv => hb v (List.mem_cons_of_mem y hv)) z hz

lemma zipWith_div_all_ones : ∀ (a b : List ℚ), (∀ y ∈ b, y = 1) → a.length ≤ b.length →
    List.zipWith (· / ·) a b = a := by
  intro a
  induction a with
  | nil => intro b _ _; rfl
  | cons x xs ih =>
    intro b h hl
    cases b with
    | nil => simp at hl
    | cons y ys =>
      simp only [List.zipWith_cons_cons, h y (List.mem_cons_self y ys), div_one]
      rw [ih ys (fun z hz => h z (List.mem_cons_of_mem y hz)) (by simpa using hl)]

lemma blockSums_cons_append {c : ℕ} (cs : List ℕ) {A : List ℚ} (B : List ℚ)
    (hA : A.length = c) :
    blockSums (c :: cs) (A ++ B) = List.replicate c A.sum ++ blockSums cs B := by
  rw [blockSums, List.take_left' hA, List.drop_left' hA]

lemma blockTotals_cons_append {c : ℕ} (cs : List ℕ) {A : List ℚ} (B : List ℚ)
    (hA : A.length = c) :
    blockTotals (c :: cs) (A ++ B) = A.sum :: blockTotals cs B := by
  rw [blockTotals, List.take_left' hA, List.drop_left' hA]

lemma zipWith_blockSums_split (c : ℕ) (cs : List ℕ) {A : List ℚ} (B : List ℚ)
    (hA : A.length = c) :
    List.zipWith (· / ·) (A ++ B) (blockSums (c :: cs) (A ++ B)) =
      (A.map fun x => x / A.sum) ++ List.zipWith (· / ·) B (blockSums cs B) := by
  rw [blockSums_cons_append cs B hA,
    List.zipWith_append _ _ _ _ _ (by rw [hA, List.length_replicate]),
    ← hA, zipWith_div_replicate]

lemma blockTotals_normRow (struct : List ℕ) :
    ∀ row : List ℚ, row.length = struct.sum →
    (∀ b ∈ blockTotals struct row, 0 < b) →
    ∀ b ∈ blockTotals struct (List.zipWith (· / ·) row (blockSums struct row)), b = 1 := by
  induction struct with
  | nil => intro row _ _ b hb; simp [blockTotals] at hb
  | cons c cs ih =>
    intro row hlen hpos b hb
    have hc : c ≤ row.length := by rw [hlen, List.sum_cons]; omega
    have hlc : (row.take c).length = c := by rw [List.length_take]; omega
    obtain ⟨A, B, hA, hrow⟩ : ∃ A B, A.length = c ∧ row = A ++ B :=
      ⟨row.take c, row.drop c, hlc, (List.take_append_drop c row).symm⟩
    subst hrow
    have hS : 0 < A.sum := by
      refine hpos _ ?_
      rw [blockTotals_cons_append cs B hA]
      exact List.mem_cons_self _ _
    have hlenA : (A.map fun x => x / A.sum).length = c := by
      rw [List.length_map, hA]
    rw [zipWith_blockSums_split c cs B hA,
      blockTotals_cons_append cs _ hlenA, List.mem_cons] at hb
    rcases hb with rfl | hb
    · rw [sum_map_div, div_self hS.ne']
    · refine ih B ?_ ?_ b hb
      · rw [List.length_append, hA] at hlen
        rw [List.sum_cons] at hlen
        omega
      · intro t ht
        refine hpos t ?_
        rw [blockTotals_cons_append cs B hA]
        exact List.mem_cons_of_mem _ ht

lemma normalize_positivity {struct : List ℕ} {p : List (List ℚ)}
    (hnz : ∀ r ∈ p, ∀ b ∈ blockTotals struct (clampRow r), b ≠ 0) :
    ∀ r ∈ p.map clampRow, ∀ s ∈ blockSums struct r, 0 < s := by
  intro r hr s hs
  obtain ⟨r0, hr0, rfl⟩ := List.mem_map.mp hr
  have hmem := mem_blockTotals_of_mem_blockSums hs
  have h0 : 0 ≤ s := blockTotals_nonneg (clampRow_nonneg r0) s hmem
  exact lt_of_le_of_ne h0 (Ne.symm (hnz r0 hr0 s hmem))

lemma normalize_ok (struct : List ℕ) (p : List (List ℚ))
    (hshape : ∀ r ∈ p, r.length = struct.sum)
    (hnz : ∀ r ∈ p, ∀ b ∈ blockTotals struct (clampRow r), b ≠ 0) :
    Probabilities.normalize struct p =
      .ok ((p.map clampRow).map fun r => List.zipWith (· / ·) r (blockSums struct r)) := by
  unfold Probabilities.normalize
  rw [if_pos hshape, if_pos (normalize_positivity hnz)]

lemma normalize_result_blocks_one (struct : List ℕ) (p : List (List ℚ))
    (hshape : ∀ r ∈ p, r.length = struct.sum)
    (hnz : ∀ r ∈ p, ∀ b ∈ blockTotals struct (clampRow r), b ≠ 0) :
    ∀ r ∈ (p.map clampRow).map fun r => List.zipWith (· / ·) r (blockSums struct r),
      ∀ b ∈ blockTotals struct r, b = 1 := by
  intro r hr
  obtain ⟨rc, hrc, rfl⟩ := List.mem_map.mp hr
  obtain ⟨r0, hr0, rfl⟩ := List.mem_map.mp hrc
  refine blockTotals_normRow struct (clampRow r0) ?_ ?_
  · rw [clampRow_length]; exact hshape r0 hr0
  · intro b hb
    have h0 : 0 ≤ b := blockTotals_nonneg (clampRow_nonneg r0) b hb
    exact lt_of_le_of_ne h0 (Ne.symm (hnz r0 hr0 b hb))

lemma normalize_of_normalized (struct : List ℕ) (q : List (List ℚ))
    (hlen : ∀ r ∈ q, r.length = struct.sum)
    (hnn : ∀ r ∈ q, ∀ x ∈ r, 0 ≤ x)
    (hones : ∀ r ∈ q, ∀ b ∈ blockTotals struct r, b = 1) :
    Probabilities.normalize struct q = .ok q := by
  have hpos2 : ∀ r ∈ q.map clampRow, ∀ s ∈ blockSums struct r, 0 < s := by
    intro r hr s hs
    obtain ⟨r0, hr0, rfl⟩ := List.mem_map.mp hr
    rw [clampRow_eq_self (hnn r0 hr0)] at hs
    rw [hones r0 hr0 s (mem_blockTotals_of_mem_blockSums hs)]
    norm_num
  unfold Probabilities.normalize
  rw [if_pos hlen, if_pos hpos2]
  have hq : ((q.map clampRow).map fun r => List.zipWith (· / ·) r (blockSums struct r)) = q := by
    rw [List.map_map]
    conv_rhs => rw [← List.map_id q]
    refine List.map_congr_left fun r hr => ?_
    have hcl : clampRow r = r := clampRow_eq_self (hnn r hr)
    show List.zipWith (· / ·) (clampRow r) (blockSums struct (clampRow r)) = id r
    rw [hcl]
    exact zipWith_div_all_ones r (blockSums struct r)
      (fun y hy => hones r hr y (mem_blockTotals_of_mem_blockSums hy))
      (by rw [blockSums_length, hlen r hr])
  rw [hq]

/-! ## Claims about `normalize` (C1, C8, C10) -/

/-- Claim C1: for every 2D rational matrix whose width equals the sum of the
structure and in which no feature block sums to zero after clamping the
negative entries to zero, `normalize` succeeds, its result is obtained by
clamping and then dividing each entry by the sum of its feature block, and
every feature block of the result sums to 1. -/
theorem c1_normalize_block_sums (struct : List ℕ) (p : List (List ℚ))
    (hshape : ∀ r ∈ p, r.length = struct.sum)
    (hnz : ∀ r ∈ p, ∀ b ∈ blockTotals struct (clampRow r), b ≠ 0) :
    ∃ q, Probabilities.normalize struct p = .ok q ∧
      q = ((p.map clampRow).map fun r => List.zipWith (· / ·) r (blockSums struct r)) ∧
      ∀ r ∈ q, ∀ b ∈ blockTotals struct r, b = 1 :=
  ⟨_, normalize_ok struct p hshape hnz, rfl,
    normalize_result_blocks_one struct p hshape hnz⟩

/-- Witness for C1 at the matrix `[[1, 3, 2]]` with structure `[2, 1]`. -/
theorem c1_normalize_block_sums_witness :
    ((∀ r ∈ [[(1:ℚ), 3, 2]], r.length = [2, 1].sum) ∧
      (∀ r ∈ [[(1:ℚ), 3, 2]], ∀ b ∈ blockTotals [2, 1] (clampRow r), b ≠ 0)) ∧
    (∃ q, Probabilities.normalize [2, 1] [[(1:ℚ), 3, 2]] = .ok q ∧
      q = (([[(1:ℚ), 3, 2]].map clampRow).map fun r =>
        List.zipWith (· / ·) r (blockSums [2, 1] r)) ∧
      ∀ r ∈ q, ∀ b ∈ blockTotals [2, 1] r, b = 1) := by
  have h1 : ∀ r ∈ [[(1:ℚ), 3, 2]], r.length = [2, 1].sum := by
    intro r hr
    simp only [List.mem_singleton] at hr
    subst hr
    rfl
  have h2 : ∀ r ∈ [[(1:ℚ), 3, 2]], ∀ b ∈ blockTotals [2, 1] (clampRow r), b ≠ 0 := by
    intro r hr
    simp only [List.mem_singleton] at hr
    subst hr
    norm_num [blockTotals, clampRow]
  exact ⟨⟨h1, h2⟩, c1_normalize_block_sums [2, 1] [[(1:ℚ), 3, 2]] h1 h2⟩

/-- Claim C8: on a matrix of the expected width over a structure of positive
cardinalities, `normalize` fails (no result is produced, only an error) if and
only if some feature block of some row sums to exactly zero after the negative
entries are clamped to zero. -/
theorem c8_normalize_fails_iff (struct : List ℕ) (p : List (List ℚ))
    (hshape : ∀ r ∈ p, r.length = struct.sum)
    (hstruct : ∀ c ∈ struct, 0 < c) :
    (∀ q, Probabilities.normalize struct p ≠ .ok q) ↔
      ∃ r ∈ p, (0:ℚ) ∈ blockTotals struct (clampRow r) := by
  unfold Probabilities.normalize
  rw [if_pos hshape]
  by_cases hpos : ∀ r ∈ p.map clampRow, ∀ s ∈ blockSums struct r, 0 < s
  · rw [if_pos hpos]
    constructor
    · intro h
      exact absurd rfl (h _)
    · rintro ⟨r, hr, h0⟩
      have := hpos (clampRow r) (List.mem_map_of_mem clampRow hr) 0
        (mem_blockSums_of_mem_blockTotals hstruct h0)
      exact absurd this (lt_irrefl 0)
  · rw [if_neg hpos]
    constructor
    · intro _
      push_neg at hpos
      obtain ⟨rc, hrc, s, hs, hns⟩ := hpos
      obtain ⟨r, hr, rfl⟩ := List.mem_map.mp hrc
      have hmem := mem_blockTotals_of_mem_blockSums hs
      have h0 : s = 0 := le_antisymm hns
        (blockTotals_nonneg (clampRow_nonneg r) s hmem)
      exact ⟨r, hr, h0 ▸ hmem⟩
    · intro _ q h
      exact Except.noConfusion h

/-- Witness for C8 at the matrix `[[-1, -1]]` with structure `[2]`: both sides
of the equivalence hold (the clamped block sums to zero and `normalize`
produces no result). -/
theorem c8_normalize_fails_iff_witness :
    ((∀ r ∈ [[(-1:ℚ), -1]], r.length = [2].sum) ∧ (∀ c ∈ [2], 0 < c)) ∧
    ((∀ q, Probabilities.normalize [2] [[(-1:ℚ), -1]] ≠ .ok q) ↔
      ∃ r ∈ [[(-1:ℚ), -1]], (0:ℚ) ∈ blockTotals [2] (clampRow r)) := by
  have h1 : ∀ r ∈ [[(-1:ℚ), -1]], r.length = [2].sum := by
    intro r hr
    simp only [List.mem_singleton] at hr
    subst hr
    rfl
  have h2 : ∀ c ∈ [2], 0 < c := by decide
  exact ⟨⟨h1, h2⟩, c8_normalize_fails_iff [2] [[(-1:ℚ), -1]] h1 h2⟩

/-- Claim C10: `normalize` is idempotent on the matrices its specification
admits: if the matrix has the expected width, has no negative entries and no
feature block summing to zero, then renormalizing the output of `normalize`
changes nothing. -/
theorem c10_normalize_idempotent (struct : List ℕ) (p : List (List ℚ))
    (hshape : ∀ r ∈ p, r.length = struct.sum)
    (hnn : ∀ r ∈ p, ∀ x ∈ r, 0 ≤ x)
    (hnz : ∀ r ∈ p, ∀ b ∈ blockTotals struct r, b ≠ 0) :
    (Probabilities.normalize struct p).bind (Probabilities.normalize struct) =
      Probabilities.normalize struct p := by
  have hnz' : ∀ r ∈ p, ∀ b ∈ blockTotals struct (clampRow r), b ≠ 0 := by
    intro r hr
    rw [clampRow_eq_self (hnn r hr)]
    exact hnz r hr
  have hok := normalize_ok struct p hshape hnz'
  rw [hok]
  show Probabilities.normalize struct _ = _
  rw [normalize_of_normalized struct _ ?_ ?_ (normalize_result_blocks_one struct p hshape hnz')]
  · intro r hr
    obtain ⟨rc, hrc, rfl⟩ := List.mem_map.mp hr
    obtain ⟨r0, hr0, rfl⟩ := List.mem_map.mp hrc
    rw [List.length_zipWith, clampRow_length, blockSums_length, hshape r0 hr0, min_self]
  · intro r hr
    obtain ⟨rc, hrc, rfl⟩ := List.mem_map.mp hr
    obtain ⟨r0, hr0, rfl⟩ := List.mem_map.mp hrc
    refine zipWith_div_nonneg _ _ (clampRow_nonneg r0) ?_
    exact normalize_positivity hnz' (clampRow r0) (List.mem_map_of_mem clampRow hr0)

/-- Witness for C10 at the matrix `[[1, 1]]` with structure `[2]`. -/
theorem c10_normalize_idempotent_witness :
    ((∀ r ∈ [[(1:ℚ), 1]], r.length = [2].sum) ∧
      (∀ r ∈ [[(1:ℚ), 1]], ∀ x ∈ r, 0 ≤ x) ∧
      (∀ r ∈ [[(1:ℚ), 1]], ∀ b ∈ blockTotals [2] r, b ≠ 0)) ∧
    (Probabilities.normalize [2] [[(1:ℚ), 1]]).bind (Probabilities.normalize [2]) =
      Probabilities.normalize [2] [[(1:ℚ), 1]] := by
  have h1 : ∀ r ∈ [[(1:ℚ), 1]], r.length = [2].sum := by
    intro r hr
    simp only [List.mem_singleton] at hr
    subst hr
    rfl
  have h2 : ∀ r ∈ [[(1:ℚ), 1]], ∀ x ∈ r, 0 ≤ x := by
    intro r hr
    simp only [List.mem_singleton] at hr
    subst hr
    norm_num
  have h3 : ∀ r ∈ [[(1:ℚ), 1]], ∀ b ∈ blockTotals [2] r, b ≠ 0 := by
    intro r hr
    simp only [List.mem_singleton] at hr
    subst hr
    norm_num [blockTotals]
  exact ⟨⟨h1, h2, h3⟩, c10_normalize_idempotent [2] [[(1:ℚ), 1]] h1 h2 h3⟩

/-! ## Lemmas about arg-max and the one-hot round trip (C2) -/

lemma argmaxPair_zero_replicate (k : ℕ) :
    argmaxPair 0 (List.replicate k (0:ℚ)) = (0, 0) := by
  induction k with
  | zero => rfl
  | succ n ih =>
    rw [List.replicate_succ, argmaxPair, ih]
    norm_num

lemma argmaxPair_one_replicate (k : ℕ) :
    argmaxPair 1 (List.replicate k (0:ℚ)) = (0, 1) := by
  cases k with
  | zero => rfl
  | succ n =>
    rw [List.replicate_succ, argmaxPair, argmaxPair_zero_replicate]
    norm_num

lemma argmaxPair_zeros_one (v k : ℕ) :
    argmaxPair 0 (List.replicate v (0:ℚ) ++ 1 :: List.replicate k 0) = (v + 1, 1) := by
  induction v with
  | zero =>
    rw [List.replicate_zero, List.nil_append, argmaxPair, argmaxPair_one_replicate]
    norm_num
  | succ n ih =>
    rw [List.replicate_succ, List.cons_append, argmaxPair, ih]
    norm_num

lemma argmaxIdx_oneHot (v k : ℕ) :
    argmaxIdx (List.replicate v (0:ℚ) ++ 1 :: List.replicate k 0) = v := by
  cases v with
  | zero =>
    rw [List.replicate_zero, List.nil_append, argmaxIdx, argmaxPair_one_replicate]
  | succ n =>
    rw [List.replicate_succ, List.cons_append, argmaxIdx, argmaxPair_zeros_one]

lemma oneHotBlock_length {c v : ℕ} (h : v < c) : (oneHotBlock c v).length = c := by
  simp only [oneHotBlock, List.length_append, List.length_replicate, List.length_cons]
  omega

lemma argmaxIdx_oneHotBlock (c v : ℕ) : argmaxIdx (oneHotBlock c v) = v :=
  argmaxIdx_oneHot v (c - 1 - v)

lemma onehotRow_length : ∀ (struct : List ℕ) (r : List ℕ),
    r.length = struct.length → (∀ pr ∈ List.zip r struct, pr.1 < pr.2) →
    (onehotRow struct r).length = struct.sum := by
  intro struct
  induction struct with
  | nil =>
    intro r h _
    cases r with
    | nil => rfl
    | cons v vs => simp at h
  | cons c cs ih =>
    intro r h hb
    cases r with
    | nil => simp at h
    | cons v vs =>
      have hv : v < c := hb (v, c) (by rw [List.zip_cons_cons]; exact List.mem_cons_self _ _)
      simp only [onehotRow, List.length_append, List.sum_cons]
      rw [oneHotBlock_length hv, ih vs (by simpa using h)
        fun pr hpr => hb pr (by rw [List.zip_cons_cons]; exact List.mem_cons_of_mem _ hpr)]

lemma valuesRow_onehotRow : ∀ (struct : List ℕ) (r : List ℕ),
    r.length = struct.length → (∀ pr ∈ List.zip r struct, pr.1 < pr.2) →
    valuesRow struct (onehotRow struct r) = r := by
  intro struct
  induction struct with
  | nil =>
    intro r h _
    cases r with
    | nil => rfl
    | cons v vs => simp at h
  | cons c cs ih =>
    intro r h hb
    cases r with
    | nil => simp at h
    | cons v vs =>
      have hv : v < c := hb (v, c) (by rw [List.zip_cons_cons]; exact List.mem_cons_self _ _)
      have hlen : (oneHotBlock c v).length = c := oneHotBlock_length hv
      show (argmaxIdx ((oneHotBlock c v ++ onehotRow cs vs).take c)) ::
        valuesRow cs ((oneHotBlock c v ++ onehotRow cs vs).drop c) = v :: vs
      rw [List.take_left' hlen, List.drop_left' hlen, argmaxIdx_oneHotBlock,
        ih vs (by simpa using h)
          fun pr hpr => hb pr (by rw [List.zip_cons_cons]; exact List.mem_cons_of_mem _ hpr)]

/-! ## Claim C2 and the empty-batch counterexample -/

/-- Counterexample to claim C2 as stated: the empty batch over structure `[2]`
is a valid index-row matrix (it is 2D, has one column per feature, and every
one of its zero entries is trivially in range), yet `to_onehot` fails on it —
`np.max(x, axis=0)` is a zero-size reduction — so the round trip does not
return the matrix. -/
theorem c2_roundtrip_counterexample :
    Probabilities.to_onehot [2] ([] : List (List ℕ)) = .error "zero-size reduction" ∧
    (Probabilities.to_onehot [2] ([] : List (List ℕ))).bind
      (Probabilities.onehot_to_values [2]) ≠ .ok ([] : List (List ℕ)) := by
  constructor
  · rfl
  · simp [Probabilities.to_onehot, Except.bind]

/-- Claim C2, amended: for every valid index-row matrix **with at least one
row** (2D, one column per feature, every entry in range — entries are naturals
here so non-negativity is inherent), `onehot_to_values (to_onehot rows)`
succeeds and returns `rows`. -/
theorem c2_roundtrip_nonempty (struct : List ℕ) (x : List (List ℕ))
    (hne : x ≠ [])
    (hshape : ∀ r ∈ x, r.length = struct.length)
    (hrange : ∀ r ∈ x, ∀ pr ∈ List.zip r struct, pr.1 < pr.2) :
    ∃ oh, Probabilities.to_onehot struct x = .ok oh ∧
      Probabilities.onehot_to_values struct oh = .ok x := by
  refine ⟨x.map (onehotRow struct), ?_, ?_⟩
  · unfold Probabilities.to_onehot
    rw [if_pos hshape, if_neg (by rintro ⟨h1, -⟩; exact hne h1), if_pos hrange]
  · unfold Probabilities.onehot_to_values
    have hlen : ∀ r ∈ x.map (onehotRow struct), r.length = struct.sum := by
      intro r hr
      obtain ⟨r0, hr0, rfl⟩ := List.mem_map.mp hr
      exact onehotRow_length struct r0 (hshape r0 hr0) (hrange r0 hr0)
    rw [if_pos hlen]
    have hx : (x.map (onehotRow struct)).map (valuesRow struct) = x := by
      rw [List.map_map]
      conv_rhs => rw [← List.map_id x]
      refine List.map_congr_left fun r hr => ?_
      show valuesRow struct (onehotRow struct r) = id r
      rw [valuesRow_onehotRow struct r (hshape r hr) (hrange r hr)]
      rfl
    rw [hx]

/-- Witness for the amended C2 at the nonempty matrix `[[1, 2], [0, 0]]` with
structure `[2, 3]`. -/
theorem c2_roundtrip_nonempty_witness :
    (([[1, 2], [0, 0]] : List (List ℕ)) ≠ [] ∧
      (∀ r ∈ ([[1, 2], [0, 0]] : List (List ℕ)), r.length = [2, 3].length) ∧
      (∀ r ∈ ([[1, 2], [0, 0]] : List (List ℕ)), ∀ pr ∈ List.zip r [2, 3], pr.1 < pr.2)) ∧
    (∃ oh, Probabilities.to_onehot [2, 3] [[1, 2], [0, 0]] = .ok oh ∧
      Probabilities.onehot_to_values [2, 3] oh = .ok [[1, 2], [0, 0]]) := by
  have h1 : ([[1, 2], [0, 0]] : List (List ℕ)) ≠ [] := by decide
  have h2 : ∀ r ∈ ([[1, 2], [0, 0]] : List (List ℕ)), r.length = [2, 3].length := by decide
  have h3 : ∀ r ∈ ([[1, 2], [0, 0]] : List (List ℕ)), ∀ pr ∈ List.zip r [2, 3],
      pr.1 < pr.2 := by decide
  exact ⟨⟨h1, h2, h3⟩, c2_roundtrip_nonempty [2, 3] [[1, 2], [0, 0]] h1 h2 h3⟩

/-! ## Claim C6: the logit-to-value pipeline -/

/-- Claim C6: for every logit matrix, `logits_to_values` equals the pipeline
the specification prescribes — apply the sigmoid, renormalize every feature
block (`normalize`), and only then take the per-block arg-max and decode
(`onehot_to_values ∘ prob_to_onehot`); ties in the arg-max break toward the
lowest index by the definition of `argmaxIdx`. -/
theorem c6_logits_pipeline (struct : List ℕ) (expf : ℚ → ℚ) (L : List (List ℚ)) :
    Probabilities.logits_to_values struct expf L = spec_logits_pipeline struct expf L := by
  unfold Probabilities.logits_to_values spec_logits_pipeline
    Probabilities.logits_to_normalized_probs
  cases h1 : Probabilities.normalize struct (L.map (sigmoidRow expf)) with
  | error e => rfl
  | ok p =>
    show _ = Except.bind _ _
    rw [Except.bind]
    cases h2 : Probabilities.prob_to_onehot struct p with
    | error e =>
      dsimp only
      rw [h2]
      rfl
    | ok oh =>
      dsimp only
      rw [h2]
      rfl

/-! ## Claim C7: EMA warm-up and update -/

lemma update_model_average_eq (e : EMA) :
    ∀ shadow current : List ℚ,
    e.update_model_average shadow current =
      List.zipWith (fun old cur => e.beta * old + (1 - e.beta) * cur) shadow current := by
  intro shadow
  induction shadow with
  | nil => intro current; cases current <;> rfl
  | cons o os ih =>
    intro current
    cases current with
    | nil => rfl
    | cons c cs =>
      have hh : EMA.update_model_average e (o :: os) (c :: cs) =
          (o * e.beta + (1 - e.beta) * c) :: EMA.update_model_average e os cs := rfl
      rw [hh, ih cs, List.zipWith_cons_cons]
      congr 1
      ring

/-- Claim C7: for an `EMA` with `beta` in `(0, 1)`, `step_ema` copies the
current parameters into the shadow exactly while the counter is below
`step_start_ema`, sets every shadow parameter to
`beta * old_shadow + (1 - beta) * current` exactly once the counter has
reached `step_start_ema`, and increments the counter by one in both cases. -/
theorem c7_ema_step (e : EMA) (shadow current : List ℚ) (sse : ℕ)
    (_hb0 : 0 < e.beta) (_hb1 : e.beta < 1) :
    (e.step < sse → (e.step_ema shadow current sse).2 = current) ∧
    (sse ≤ e.step → (e.step_ema shadow current sse).2 =
      List.zipWith (fun old cur => e.beta * old + (1 - e.beta) * cur) shadow current) ∧
    (e.step_ema shadow current sse).1.step = e.step + 1 := by
  unfold EMA.step_ema
  by_cases h : e.step < sse
  · rw [if_pos h]
    exact ⟨fun _ => rfl, fun hle => absurd h (not_lt.mpr hle), rfl⟩
  · rw [if_neg h]
    exact ⟨fun hlt => absurd hlt h, fun _ => update_model_average_eq e shadow current, rfl⟩

/-- Witness for C7: `beta = 1/2`, counter at 5, warm-up threshold 3, shadow
`[1, 2]`, current `[3, 4]`. -/
theorem c7_ema_step_witness :
    ((0:ℚ) < (⟨1/2, 5⟩ : EMA).beta ∧ (⟨1/2, 5⟩ : EMA).beta < 1) ∧
    (((⟨1/2, 5⟩ : EMA).step < 3 →
        ((⟨1/2, 5⟩ : EMA).step_ema [1, 2] [3, 4] 3).2 = [3, 4]) ∧
      (3 ≤ (⟨1/2, 5⟩ : EMA).step →
        ((⟨1/2, 5⟩ : EMA).step_ema [1, 2] [3, 4] 3).2 =
          List.zipWith
            (fun old cur => (⟨1/2, 5⟩ : EMA).beta * old + (1 - (⟨1/2, 5⟩ : EMA).beta) * cur)
            [1, 2] [3, 4]) ∧
      ((⟨1/2, 5⟩ : EMA).step_ema [1, 2] [3, 4] 3).1.step = (⟨1/2, 5⟩ : EMA).step + 1) := by
  refine ⟨⟨by norm_num, by norm_num⟩, ?_⟩
  exact c7_ema_step ⟨1/2, 5⟩ [1, 2] [3, 4] 3 (by norm_num) (by norm_num)

/-! ## Claim C9: the corrector never writes to the model's parameters -/

lemma runLoop_preserves_model (sqrtf logf : ℚ → ℚ) (struct : List ℕ)
    (model : Classifier) (eta threshold : ℚ) (n_iter : ℕ) :
    ∀ (fuel : ℕ) (p : List (List ℚ)) (i : ℕ),
      (runLoop sqrtf logf struct model eta threshold n_iter p i fuel).2 = model := by
  intro fuel
  induction fuel with
  | zero => intro p i; rfl
  | succ n ih =>
    intro p i
    rw [runLoop]
    dsimp only
    split
    · rfl
    · split
      · rfl
      · split
        · rfl
        · split
          · rfl
          · exact ih _ _

/-- Claim C9: a call to `InverseGradient.run` leaves every parameter of the
classifier untouched: whatever state the loop stops in, the model that comes
out is the model that went in — the loop only reads the model through forward
evaluation and input-gradient queries and only ever reassigns the input point. -/
theorem c9_run_preserves_model (sqrtf logf : ℚ → ℚ) (model : Classifier)
    (x : List (List ℚ)) (n_values : List ℕ) (eta threshold : ℚ)
    (n_iter fuel : ℕ) :
    (InverseGradient.run sqrtf logf model x n_values eta threshold n_iter fuel).2 =
      model :=
  runLoop_preserves_model sqrtf logf n_values model eta threshold n_iter fuel x 0

/-! ## Claim C3: the zero-gradient exit is not non-fatal -/

/-- Classifier used for the C3 failing input: constant prediction `1/2` whose
gradient with respect to the input is identically zero. -/
def zeroGradClassifier : Classifier :=
  ⟨[], fun _ _ => [1/2], fun _ _ => [[0, 0]]⟩

/-- Claim C3 is contradicted by the code on the zero-gradient input: with the
classifier above, the point `[[1/2, 1/2]]` over structure `[2]` and the
default hyperparameters (`eta = 0.01`, `n_iter = 300`, `threshold = 0.05`),
the very first loop pass divides `dp` by `module = 0` before the
`module == 0` check is reached, so the NaN-filled point makes `normalize`'s
positivity assert fail and `run` aborts with an assertion error instead of
returning a point, a loss and a zero-gradient warning.  (The loss here is
`-log(1/2) = 0.7 > threshold`, so the success exit is not taken either; one
unit of loop fuel suffices because the pass that crashes is the first.) -/
theorem c3_zero_gradient_is_fatal :
    (InverseGradient.run (fun q => if q = 0 then 0 else 1) (fun _ => -(7/10))
      zeroGradClassifier [[1/2, 1/2]] [2] (1/100) (1/20) 300 1).1 =
      .error .assertionError := by
  norm_num [InverseGradient.run, runLoop, bceLossZero, flatSumSq,
    Classifier.predict, Classifier.gradInput, zeroGradClassifier]

/-! ## Claim C4: the reverse-step noise scale -/

/-- Schedule state used for the C4 failing input: two steps with
`alpha_bar 0 = 3/4`, `alpha_bar 1 = 1/2`, `beta 1 = 1/2`, `alpha 1 = 1`. -/
def c4Schedule : ScheduleState :=
  ⟨2, fun t => if t = 1 then 1/2 else 1/4, fun t => if t = 1 then 1 else 3/4,
    fun t => if t = 0 then 3/4 else 1/2, fun _ => 1, fun _ => 1⟩

/-- Claim C4 is contradicted by the code at `t = 1` of the schedule above with
`x_t = 0`, `predicted_noise = 0` and fresh noise 1: the posterior mean is 0
and the factor the code multiplies the noise by is
`(1 - alpha_bar 0) / (1 - alpha_bar 1) * beta 1 = 1/4` — the posterior
variance — so the code returns `1/4`, whereas the claimed standard deviation
`sqrt(1/4) = 1/2` (the unique non-negative root) would give
`mean + 1/2 * 1 = 1/2 ≠ 1/4`. -/
theorem c4_noise_scale_is_variance :
    sample_prev_step (fun x => if x = 1 then 1 else 0) c4Schedule 0 0 1 1 = 1/4 ∧
    ((1:ℚ)/2) ^ 2 = (1 - c4Schedule.alpha_bar 0) / (1 - c4Schedule.alpha_bar 1) *
      c4Schedule.betas 1 ∧
    (0:ℚ) ≤ 1/2 ∧
    ¬ ((1:ℚ)/4 = 0 + (1/2) * 1) := by
  refine ⟨?_, by norm_num [c4Schedule], by norm_num, by norm_num⟩
  norm_num [sample_prev_step, c4Schedule]

/-! ## Claim C5: noise-schedule coefficient properties -/

lemma linspace_zero (a b : ℚ) (n : ℕ) : linspace a b n 0 = a := by
  unfold linspace
  split <;> simp

lemma linspace_grid (T i : ℕ) (h : 2 ≤ T) :
    linspace 0 T T i = (T:ℚ) * i / ((T:ℚ) - 1) := by
  unfold linspace
  rw [if_neg (by omega)]
  ring

lemma linspace_mem_unit {a b : ℚ} (ha0 : 0 ≤ a) (ha1 : a ≤ 1) (hb0 : 0 ≤ b)
    (hb1 : b ≤ 1) {n i : ℕ} (hi : i < n) :
    0 ≤ linspace a b n i ∧ linspace a b n i ≤ 1 := by
  unfold linspace
  by_cases h : n ≤ 1
  · rw [if_pos h]
    exact ⟨ha0, ha1⟩
  · rw [if_neg h]
    have hd : (0:ℚ) < (n:ℚ) - 1 := by
      have h2 : (2:ℚ) ≤ (n:ℚ) := by exact_mod_cast (by omega : 2 ≤ n)
      linarith
    have hiq : (i:ℚ) ≤ (n:ℚ) - 1 := by
      have h2 : (i:ℚ) + 1 ≤ (n:ℚ) := by exact_mod_cast Nat.succ_le_of_lt hi
      linarith
    rw [mul_div_assoc]
    have hr0 : 0 ≤ (i:ℚ) / ((n:ℚ) - 1) := div_nonneg (Nat.cast_nonneg i) hd.le
    have hr1 : (i:ℚ) / ((n:ℚ) - 1) ≤ 1 := (div_le_one hd).mpr hiq
    constructor
    · nlinarith [mul_nonneg ha0 (sub_nonneg.mpr hr1), mul_nonneg hb0 hr0]
    · nlinarith [mul_nonneg (sub_nonneg.mpr ha1) (sub_nonneg.mpr hr1),
        mul_nonneg (sub_nonneg.mpr hb1) hr0]

lemma linear_alphas_unit {bs be : ℚ} (hbs0 : 0 ≤ bs) (hbs1 : bs ≤ 1)
    (hbe0 : 0 ≤ be) (hbe1 : be ≤ 1) {T i : ℕ} (hi : i < T) :
    0 ≤ linear_alphas bs be T i ∧ linear_alphas bs be T i ≤ 1 := by
  unfold linear_alphas linear_betas
  obtain ⟨h0, h1⟩ := linspace_mem_unit hbs0 hbs1 hbe0 hbe1 hi
  constructor <;> linarith

lemma linear_alpha_bar_nonneg {bs be : ℚ} (hbs0 : 0 ≤ bs) (hbs1 : bs ≤ 1)
    (hbe0 : 0 ≤ be) (hbe1 : be ≤ 1) {T t : ℕ} (ht : t < T) :
    0 ≤ linear_alpha_bar bs be T t := by
  unfold linear_alpha_bar
  refine Finset.prod_nonneg fun i hi => ?_
  have hiT : i < T := by
    have := Finset.mem_range.mp hi
    omega
  exact (linear_alphas_unit hbs0 hbs1 hbe0 hbe1 hiT).1

lemma linear_alpha_bar_mono {bs be : ℚ} (hbs0 : 0 ≤ bs) (hbs1 : bs ≤ 1)
    (hbe0 : 0 ≤ be) (hbe1 : be ≤ 1) {T t : ℕ} (ht : t + 1 < T) :
    linear_alpha_bar bs be T (t + 1) ≤ linear_alpha_bar bs be T t := by
  have hbar : 0 ≤ linear_alpha_bar bs be T t :=
    linear_alpha_bar_nonneg hbs0 hbs1 hbe0 hbe1 (by omega)
  have halpha := linear_alphas_unit hbs0 hbs1 hbe0 hbe1 ht
  unfold linear_alpha_bar at hbar ⊢
  rw [Finset.prod_range_succ]
  exact mul_le_of_le_one_right hbar halpha.2

lemma linear_alpha_bar_zero (bs be : ℚ) (T : ℕ) :
    linear_alpha_bar bs be T 0 = 1 - bs := by
  unfold linear_alpha_bar
  rw [Finset.prod_range_one]
  unfold linear_alphas linear_betas
  rw [linspace_zero]

lemma cosine_alpha_bar_zero (cosHalfPi : ℚ → ℚ) (T : ℕ) (s : ℚ)
    (hf0 : 0 < cosine_schedule_fn cosHalfPi T s 0) :
    cosine_alpha_bar cosHalfPi T s 0 = 1 := by
  unfold cosine_alpha_bar
  rw [linspace_zero, div_self hf0.ne']

lemma cosine_alpha_bar_mono (cosHalfPi : ℚ → ℚ) {T : ℕ} {s : ℚ} (hs : 0 ≤ s)
    (hnn : ∀ y : ℚ, 0 ≤ y → y ≤ 1 → 0 ≤ cosHalfPi y)
    (hanti : ∀ y z : ℚ, 0 ≤ y → y ≤ z → z ≤ 1 → cosHalfPi z ≤ cosHalfPi y)
    (hf0 : 0 < cosine_schedule_fn cosHalfPi T s 0)
    {t : ℕ} (ht : t + 1 < T) :
    cosine_alpha_bar cosHalfPi T s (t + 1) ≤ cosine_alpha_bar cosHalfPi T s t := by
  have hT : 2 ≤ T := by omega
  have hT0 : (0:ℚ) < (T:ℚ) := by exact_mod_cast (by omega : 0 < T)
  have hd : (0:ℚ) < (T:ℚ) - 1 := by
    have h2 : (2:ℚ) ≤ (T:ℚ) := by exact_mod_cast hT
    linarith
  have h1s : (0:ℚ) < 1 + s := by linarith
  have hv : ∀ i : ℕ, linspace 0 T T i / T = (i:ℚ) / ((T:ℚ) - 1) := by
    intro i
    rw [linspace_grid T i hT]
    field_simp
    ring
  set u : ℕ → ℚ := fun i => ((i:ℚ) / ((T:ℚ) - 1) + s) / (1 + s) with hu
  have harg : ∀ i : ℕ, (linspace 0 T T i / T + s) / (1 + s) = u i := by
    intro i
    rw [hu, hv i]
  have hu0 : ∀ i : ℕ, 0 ≤ u i := fun i =>
    div_nonneg (add_nonneg (div_nonneg (Nat.cast_nonneg i) hd.le) hs) h1s.le
  have hu1 : ∀ i : ℕ, i < T → u i ≤ 1 := by
    intro i hi
    rw [hu]
    rw [div_le_one h1s]
    have hle : (i:ℚ) ≤ (T:ℚ) - 1 := by
      have h2 : (i:ℚ) + 1 ≤ (T:ℚ) := by exact_mod_cast Nat.succ_le_of_lt hi
      linarith
    have := (div_le_one hd).mpr hle
    linarith
  have humono : u t ≤ u (t + 1) := by
    rw [hu]
    have hnum : (t:ℚ) / ((T:ℚ) - 1) ≤ ((t + 1 : ℕ):ℚ) / ((T:ℚ) - 1) := by
      refine (div_le_div_iff_of_pos_right hd).mpr ?_
      push_cast
      linarith
    refine (div_le_div_iff_of_pos_right h1s).mpr ?_
    linarith
  unfold cosine_alpha_bar cosine_schedule_fn
  unfold cosine_schedule_fn at hf0
  rw [harg (t + 1), harg t]
  refine (div_le_div_iff_of_pos_right hf0).mpr ?_
  exact pow_le_pow_left₀ (hnn (u (t + 1)) (hu0 _) (hu1 _ ht))
    (hanti (u t) (u (t + 1)) (hu0 t) humono (hu1 _ ht)) 2

lemma schedule_pythagoras (S : ScheduleState) (T : ℕ)
    (hsq : ∀ t, t < T → S.sqrt_alpha_bar t ^ 2 = S.alpha_bar t ∧
      S.sqrt_one_minus_alpha_bar t ^ 2 = 1 - S.alpha_bar t) :
    ∀ t, t < T → S.sqrt_alpha_bar t ^ 2 + S.sqrt_one_minus_alpha_bar t ^ 2 = 1 := by
  intro t ht
  obtain ⟨h1, h2⟩ := hsq t ht
  rw [h1, h2]
  ring

/-- Claim C5: for the linear scheduler with betas in `[0, 1]` and for the
cosine scheduler with offset `s ≥ 0` (given that the modelled `cos(y·π/2)` is
non-negative and non-increasing on `[0, 1]`, that the schedule value at 0 is
positive, and that the modelled `torch.sqrt` squares back to its argument on
the schedule values), the cumulative alpha product `alpha_bar` is
non-increasing in `t`, its first entry is at most 1, and
`sqrt_alpha_bar[t]^2 + sqrt_one_minus_alpha_bar[t]^2 = 1` for every `t < T`. -/
theorem c5_schedule_coefficients (T : ℕ) (beta_start beta_end s : ℚ)
    (sqrtfL sqrtfC cosHalfPi : ℚ → ℚ)
    (hbs0 : 0 ≤ beta_start) (hbs1 : beta_start ≤ 1)
    (hbe0 : 0 ≤ beta_end) (hbe1 : beta_end ≤ 1)
    (hsqL : ∀ t, t < T →
      (LinearNoiseScheduler.init_schedule sqrtfL T beta_start beta_end).sqrt_alpha_bar t ^ 2 =
        (LinearNoiseScheduler.init_schedule sqrtfL T beta_start beta_end).alpha_bar t ∧
      (LinearNoiseScheduler.init_schedule sqrtfL T beta_start beta_end).sqrt_one_minus_alpha_bar t ^ 2 =
        1 - (LinearNoiseScheduler.init_schedule sqrtfL T beta_start beta_end).alpha_bar t)
    (hs : 0 ≤ s)
    (hcos_nonneg : ∀ y : ℚ, 0 ≤ y → y ≤ 1 → 0 ≤ cosHalfPi y)
    (hcos_anti : ∀ y z : ℚ, 0 ≤ y → y ≤ z → z ≤ 1 → cosHalfPi z ≤ cosHalfPi y)
    (hf0 : 0 < cosine_schedule_fn cosHalfPi T s 0)
    (hsqC : ∀ t, t < T →
      (CosineNoiseScheduler.init_schedule cosHalfPi sqrtfC T s).sqrt_alpha_bar t ^ 2 =
        (CosineNoiseScheduler.init_schedule cosHalfPi sqrtfC T s).alpha_bar t ∧
      (CosineNoiseScheduler.init_schedule cosHalfPi sqrtfC T s).sqrt_one_minus_alpha_bar t ^ 2 =
        1 - (CosineNoiseScheduler.init_schedule cosHalfPi sqrtfC T s).alpha_bar t) :
    ((∀ t, t + 1 < T →
        (LinearNoiseScheduler.init_schedule sqrtfL T beta_start beta_end).alpha_bar (t + 1) ≤
          (LinearNoiseScheduler.init_schedule sqrtfL T beta_start beta_end).alpha_bar t) ∧
      (LinearNoiseScheduler.init_schedule sqrtfL T beta_start beta_end).alpha_bar 0 ≤ 1 ∧
      (∀ t, t < T →
        (LinearNoiseScheduler.init_schedule sqrtfL T beta_start beta_end).sqrt_alpha_bar t ^ 2 +
          (LinearNoiseScheduler.init_schedule sqrtfL T beta_start beta_end).sqrt_one_minus_alpha_bar t ^ 2 = 1)) ∧
    ((∀ t, t + 1 < T →
        (CosineNoiseScheduler.init_schedule cosHalfPi sqrtfC T s).alpha_bar (t + 1) ≤
          (CosineNoiseScheduler.init_schedule cosHalfPi sqrtfC T s).alpha_bar t) ∧
      (CosineNoiseScheduler.init_schedule cosHalfPi sqrtfC T s).alpha_bar 0 ≤ 1 ∧
      (∀ t, t < T →
        (CosineNoiseScheduler.init_schedule cosHalfPi sqrtfC T s).sqrt_alpha_bar t ^ 2 +
          (CosineNoiseScheduler.init_schedule cosHalfPi sqrtfC T s).sqrt_one_minus_alpha_bar t ^ 2 = 1)) := by
  refine ⟨⟨?_, ?_, schedule_pythagoras _ T hsqL⟩,
    ⟨?_, ?_, schedule_pythagoras _ T hsqC⟩⟩
  · intro t ht
    show linear_alpha_bar beta_start beta_end T (t + 1) ≤
      linear_alpha_bar beta_start beta_end T t
    exact linear_alpha_bar_mono hbs0 hbs1 hbe0 hbe1 ht
  · show linear_alpha_bar beta_start beta_end T 0 ≤ 1
    rw [linear_alpha_bar_zero]
    linarith
  · intro t ht
    show cosine_alpha_bar cosHalfPi T s (t + 1) ≤ cosine_alpha_bar cosHalfPi T s t
    exact cosine_alpha_bar_mono cosHalfPi hs hcos_nonneg hcos_anti hf0 ht
  · show cosine_alpha_bar cosHalfPi T s 0 ≤ 1
    rw [cosine_alpha_bar_zero cosHalfPi T s hf0]

/-- Concrete square root used by the C5 witness, exact on the four schedule
values of the witness's linear scheduler. -/
def sqrtLW : ℚ → ℚ := fun x =>
  if x = 9/25 then 3/5 else if x = 49/625 then 7/25
  else if x = 16/25 then 4/5 else if x = 576/625 then 24/25 else 0

/-- Concrete model of `cos(y·π/2)` used by the C5 witness: non-negative and
non-increasing on `[0, 1]`, with value 1 at 0 and 0 at 1. -/
def cosW : ℚ → ℚ := fun y => max 0 (1 - y)

/-- Concrete square root used by the C5 witness's cosine scheduler. -/
def sqrtCW : ℚ → ℚ := fun x => if x = 1 then 1 else 0

/-- Witness for C5 at `T = 2`, linear betas `16/25` and `176/225`, cosine
offset `s = 0`, with the concrete square-root and cosine models above. -/
theorem c5_schedule_coefficients_witness :
    ((0:ℚ) ≤ 16/25 ∧ (16:ℚ)/25 ≤ 1 ∧ (0:ℚ) ≤ 176/225 ∧ (176:ℚ)/225 ≤ 1 ∧
      (∀ t, t < 2 →
        (LinearNoiseScheduler.init_schedule sqrtLW 2 (16/25) (176/225)).sqrt_alpha_bar t ^ 2 =
          (LinearNoiseScheduler.init_schedule sqrtLW 2 (16/25) (176/225)).alpha_bar t ∧
        (LinearNoiseScheduler.init_schedule sqrtLW 2 (16/25) (176/225)).sqrt_one_minus_alpha_bar t ^ 2 =
          1 - (LinearNoiseScheduler.init_schedule sqrtLW 2 (16/25) (176/225)).alpha_bar t) ∧
      (0:ℚ) ≤ 0 ∧
      (∀ y : ℚ, 0 ≤ y → y ≤ 1 → 0 ≤ cosW y) ∧
      (∀ y z : ℚ, 0 ≤ y → y ≤ z → z ≤ 1 → cosW z ≤ cosW y) ∧
      0 < cosine_schedule_fn cosW 2 0 0 ∧
      (∀ t, t < 2 →
        (CosineNoiseScheduler.init_schedule cosW sqrtCW 2 0).sqrt_alpha_bar t ^ 2 =
          (CosineNoiseScheduler.init_schedule cosW sqrtCW 2 0).alpha_bar t ∧
        (CosineNoiseScheduler.init_schedule cosW sqrtCW 2 0).sqrt_one_minus_alpha_bar t ^ 2 =
          1 - (CosineNoiseScheduler.init_schedule cosW sqrtCW 2 0).alpha_bar t)) ∧
    (((∀ t, t + 1 < 2 →
        (LinearNoiseScheduler.init_schedule sqrtLW 2 (16/25) (176/225)).alpha_bar (t + 1) ≤
          (LinearNoiseScheduler.init_schedule sqrtLW 2 (16/25) (176/225)).alpha_bar t) ∧
      (LinearNoiseScheduler.init_schedule sqrtLW 2 (16/25) (176/225)).alpha_bar 0 ≤ 1 ∧
      (∀ t, t < 2 →
        (LinearNoiseScheduler.init_schedule sqrtLW 2 (16/25) (176/225)).sqrt_alpha_bar t ^ 2 +
          (LinearNoiseScheduler.init_schedule sqrtLW 2 (16/25) (176/225)).sqrt_one_minus_alpha_bar t ^ 2 = 1)) ∧
    ((∀ t, t + 1 < 2 →
        (CosineNoiseScheduler.init_schedule cosW sqrtCW 2 0).alpha_bar (t + 1) ≤
          (CosineNoiseScheduler.init_schedule cosW sqrtCW 2 0).alpha_bar t) ∧
      (CosineNoiseScheduler.init_schedule cosW sqrtCW 2 0).alpha_bar 0 ≤ 1 ∧
      (∀ t, t < 2 →
        (CosineNoiseScheduler.init_schedule cosW sqrtCW 2 0).sqrt_alpha_bar t ^ 2 +
          (CosineNoiseScheduler.init_schedule cosW sqrtCW 2 0).sqrt_one_minus_alpha_bar t ^ 2 = 1))) := by
  have hsqL : ∀ t, t < 2 →
      (LinearNoiseScheduler.init_schedule sqrtLW 2 (16/25) (176/225)).sqrt_alpha_bar t ^ 2 =
        (LinearNoiseScheduler.init_schedule sqrtLW 2 (16/25) (176/225)).alpha_bar t ∧
      (LinearNoiseScheduler.init_schedule sqrtLW 2 (16/25) (176/225)).sqrt_one_minus_alpha_bar t ^ 2 =
        1 - (LinearNoiseScheduler.init_schedule sqrtLW 2 (16/25) (176/225)).alpha_bar t := by
    intro t ht
    interval_cases t <;>
      constructor <;>
        norm_num [LinearNoiseScheduler.init_schedule, linear_alpha_bar, linear_alphas,
          linear_betas, linspace, sqrtLW, Finset.prod_range_succ, Finset.prod_range_one]
  have hnn : ∀ y : ℚ, 0 ≤ y → y ≤ 1 → 0 ≤ cosW y := by
    intro y _ _
    exact le_max_left 0 (1 - y)
  have hanti : ∀ y z : ℚ, 0 ≤ y → y ≤ z → z ≤ 1 → cosW z ≤ cosW y := by
    intro y z _ hyz _
    exact max_le_max (le_refl 0) (by linarith)
  have hf0 : 0 < cosine_schedule_fn cosW 2 0 0 := by
    norm_num [cosine_schedule_fn, cosW, max_def]
  have hsqC : ∀ t, t < 2 →
      (CosineNoiseScheduler.init_schedule cosW sqrtCW 2 0).sqrt_alpha_bar t ^ 2 =
        (CosineNoiseScheduler.init_schedule cosW sqrtCW 2 0).alpha_bar t ∧
      (CosineNoiseScheduler.init_schedule cosW sqrtCW 2 0).sqrt_one_minus_alpha_bar t ^ 2 =
        1 - (CosineNoiseScheduler.init_schedule cosW sqrtCW 2 0).alpha_bar t := by
    intro t ht
    interval_cases t <;>
      constructor <;>
        norm_num [CosineNoiseScheduler.init_schedule, cosine_alpha_bar,
          cosine_schedule_fn, linspace, cosW, sqrtCW, max_def]
  exact ⟨⟨by norm_num, by norm_num, by norm_num, by norm_num, hsqL, le_refl 0,
      hnn, hanti, hf0, hsqC⟩,
    c5_schedule_coefficients 2 (16/25) (176/225) 0 sqrtLW sqrtCW cosW
      (by norm_num) (by norm_num) (by norm_num) (by norm_num) hsqL (le_refl 0)
      hnn hanti hf0 hsqC⟩

end Spec2Proof
